import Mathlib

/-!
Verification of the convolutional neural network implementation in
convPoolNeuralNetwork.py (MNIST digit classifier).

The numeric pipeline is embedded shallowly: numpy arrays of fixed shape
become functions out of `Fin` types, numpy floating point becomes an
arbitrary linear ordered field (instantiated at ℚ or ℝ), and the
transcendental parts of the pipeline (softmax, logarithm) are stated
over ℝ.  Each definition follows the corresponding Python function;
comments quote the line of source it translates.
-/

namespace ConvPoolNN

variable {α : Type} [LinearOrderedField α]

/-! ## Activation library -/

/-- `relu(Z)`: returns `(A, cache)` where `A = np.maximum(0, Z)` and the
cache retains `Z` (the Python cache dictionary has the single key "Z"). -/
def relu {n m : ℕ} (Z : Matrix (Fin n) (Fin m) α) :
    Matrix (Fin n) (Fin m) α × Matrix (Fin n) (Fin m) α :=
  (fun i j => max 0 (Z i j), Z)

/-- `relu_der(dA, cache)`: `dZ` is a copy of `dA` in which every position
where the cached `Z` is negative is overwritten with 0 (`dZ[Z < 0] = 0`). -/
def relu_der {n m : ℕ} (dA : Matrix (Fin n) (Fin m) α)
    (cacheZ : Matrix (Fin n) (Fin m) α) : Matrix (Fin n) (Fin m) α :=
  fun i j => if cacheZ i j < 0 then 0 else dA i j

/-- `linear(Z)`: identity activation, empty cache. -/
def linear {n m : ℕ} (Z : Matrix (Fin n) (Fin m) α) :
    Matrix (Fin n) (Fin m) α × Unit :=
  (Z, ())

/-- `linear_der(dA, cache)`: returns a copy of `dA`. -/
def linear_der {n m : ℕ} (dA : Matrix (Fin n) (Fin m) α) :
    Matrix (Fin n) (Fin m) α :=
  fun i j => dA i j

/-! ## Dense layer engine -/

/-- `linear_forward(A, W, b)`: `Z = np.dot(W, A) + b` with the bias
broadcast along columns; the cache retains the layer input `A`. -/
def linear_forward {n p m : ℕ} (A : Matrix (Fin p) (Fin m) α)
    (W : Matrix (Fin n) (Fin p) α) (b : Fin n → α) :
    Matrix (Fin n) (Fin m) α × Matrix (Fin p) (Fin m) α :=
  (fun i j => (∑ k, W i k * A k j) + b i, A)

/-- `linear_backward(dZ, cache, W, b)`:
`dA_prev = np.dot(W.T, dZ)`, `dW = np.dot(dZ, A_prev.T) / m`,
`db = np.sum(dZ, axis=1, keepdims=True) / m` where `m = dZ.shape[1]`.
The bias argument is present in the source signature but unused. -/
def linear_backward {n p m : ℕ} (dZ : Matrix (Fin n) (Fin m) α)
    (cacheA : Matrix (Fin p) (Fin m) α) (W : Matrix (Fin n) (Fin p) α)
    (_b : Fin n → α) :
    Matrix (Fin p) (Fin m) α × Matrix (Fin n) (Fin p) α × (Fin n → α) :=
  (fun i j => ∑ k, W k i * dZ k j,
   fun i k => (∑ j, dZ i j * cacheA k j) / (m : α),
   fun i => (∑ j, dZ i j) / (m : α))

/-- C3: for every dZ of shape (n, m) with m ≥ 1, cached A_prev of shape
(p, m) and weight matrix W of shape (n, p), `linear_backward` returns
exactly dA_prev = Wᵀ·dZ, dW = (dZ·A_prevᵀ)/m and db = the row-wise sum
of dZ divided by m (gradients averaged over the batch). -/
theorem C3_linear_backward_formulas {n p m : ℕ}
    (dZ : Matrix (Fin n) (Fin (m + 1)) α)
    (A_prev : Matrix (Fin p) (Fin (m + 1)) α)
    (W : Matrix (Fin n) (Fin p) α) (b : Fin n → α) :
    (linear_backward dZ A_prev W b).1 = W.transpose * dZ ∧
    (linear_backward dZ A_prev W b).2.1 =
      ((m + 1 : ℕ) : α)⁻¹ • (dZ * A_prev.transpose) ∧
    (linear_backward dZ A_prev W b).2.2 =
      fun i => (∑ j, dZ i j) / ((m + 1 : ℕ) : α) := by
  refine ⟨?_, ?_, rfl⟩
  · ext i j
    simp [linear_backward, Matrix.mul_apply, Matrix.transpose_apply]
  · ext i k
    simp [linear_backward, Matrix.mul_apply, Matrix.transpose_apply,
      Matrix.smul_apply, div_eq_inv_mul, mul_comm]

/-! ## Convolution-pooling engine -/

/-- `scipy.signal.convolve2d(X, W, mode='valid')` for a 28×28 image and a
3×3 kernel: true 2D convolution (the kernel is flipped in both axes), no
padding, output 26×26. -/
def convolve2d_valid (X : Matrix (Fin 28) (Fin 28) α)
    (W : Matrix (Fin 3) (Fin 3) α) : Matrix (Fin 26) (Fin 26) α :=
  fun r c => ∑ a : Fin 3, ∑ b : Fin 3,
    X ⟨r.val + a.val, by omega⟩ ⟨c.val + b.val, by omega⟩ *
      W ⟨2 - a.val, by omega⟩ ⟨2 - b.val, by omega⟩

/-- `np.repeat(np.repeat(z, 2, axis=0), 2, axis=1)`: nearest-neighbour
2× upsampling of a square array. -/
def np_repeat2 {n : ℕ} (z : Matrix (Fin n) (Fin n) α) :
    Matrix (Fin (2 * n)) (Fin (2 * n)) α :=
  fun s t => z ⟨s.val / 2, by omega⟩ ⟨t.val / 2, by omega⟩

/-- `z[1:-1, 1:-1]` on a 52×52 array: drop the first and last row and
column. -/
def trim_border (z : Matrix (Fin 52) (Fin 52) α) :
    Matrix (Fin 50) (Fin 50) α :=
  fun s t => z ⟨s.val + 1, by omega⟩ ⟨t.val + 1, by omega⟩

/-- `z.reshape((25, 2, 25, 2)).max(axis=(1, 3))`: the maximum of each
2×2 group of the 50×50 array. -/
def pool_group_max (z : Matrix (Fin 50) (Fin 50) α) :
    Matrix (Fin 25) (Fin 25) α :=
  fun r c =>
    max (max (z ⟨2 * r.val, by omega⟩ ⟨2 * c.val, by omega⟩)
             (z ⟨2 * r.val, by omega⟩ ⟨2 * c.val + 1, by omega⟩))
        (max (z ⟨2 * r.val + 1, by omega⟩ ⟨2 * c.val, by omega⟩)
             (z ⟨2 * r.val + 1, by omega⟩ ⟨2 * c.val + 1, by omega⟩))

/-- `np.equal(z_prev, z_up)` stored with `dtype=int`. -/
def np_equal_mask [DecidableEq α] (z_prev z_up : Matrix (Fin 50) (Fin 50) α) :
    Matrix (Fin 50) (Fin 50) ℤ :=
  fun s t => if z_prev s t = z_up s t then 1 else 0

/-- The filter bank: 5 independent 3×3 filters with scalar biases
(`convParameters` dictionary keys "convW1".."convW5", "convb1".."convb5";
filter `i : Fin 5` stands for key index `i+1`). -/
structure ConvParams (α : Type) where
  convW : Fin 5 → Matrix (Fin 3) (Fin 3) α
  convb : Fin 5 → α

/-- The cache built by `conv_forward`: the input image batch (key "A"),
the filter parameters, and the pooling masks array of shape
(50, 50, 5, m). -/
structure ConvCache (α : Type) (m : ℕ) where
  A : Fin 28 → Fin 28 → Fin m → α
  params : ConvParams α
  masks : Fin 50 → Fin 50 → Fin 5 → Fin m → ℤ

/-- The gradients returned by `conv_backward` (keys "dconvW1".."dconvb5"). -/
structure ConvGrads (α : Type) where
  dconvW : Fin 5 → Matrix (Fin 3) (Fin 3) α
  dconvb : Fin 5 → α

/-- The body of `conv_forward`'s inner loop for one filter and one sample:
`z = signal.convolve2d(X[:,:,j], W, mode='valid') + b`, then the stride-1
2×2 max pooling implemented by double `np.repeat`, border trim, and
grouped max. -/
def conv_pool_single (X1 : Matrix (Fin 28) (Fin 28) α)
    (W : Matrix (Fin 3) (Fin 3) α) (b : α) : Matrix (Fin 25) (Fin 25) α :=
  pool_group_max (trim_border (np_repeat2 (fun r c => convolve2d_valid X1 W r c + b)))

/-- The mask recorded by `conv_forward` for one filter and one sample:
`np.equal(z_prev, z)` where `z_prev` is the trimmed upsampled convolution
map and `z` is the pooled result upsampled back with two `np.repeat`. -/
def conv_mask_single [DecidableEq α] (X1 : Matrix (Fin 28) (Fin 28) α)
    (W : Matrix (Fin 3) (Fin 3) α) (b : α) : Matrix (Fin 50) (Fin 50) ℤ :=
  np_equal_mask (trim_border (np_repeat2 (fun r c => convolve2d_valid X1 W r c + b)))
    (np_repeat2 (conv_pool_single X1 W b))

/-- `conv_forward(X, parameters)`: stacks the five 625-long row-major
flattenings of the pooled maps into a 3125×m matrix
(`Z[dim*i : dim*(i+1), j] = z.reshape(dim)`) and fills the cache. -/
def conv_forward [DecidableEq α] {m : ℕ} (X : Fin 28 → Fin 28 → Fin m → α)
    (parameters : ConvParams α) :
    Matrix (Fin 3125) (Fin m) α × ConvCache α m :=
  (fun k j =>
      conv_pool_single (fun u v => X u v j)
        (parameters.convW ⟨k.val / 625, by omega⟩)
        (parameters.convb ⟨k.val / 625, by omega⟩)
        ⟨k.val % 625 / 25, by omega⟩ ⟨k.val % 625 % 25, by omega⟩,
   { A := X, params := parameters,
     masks := fun s t i j =>
       conv_mask_single (fun u v => X u v j) (parameters.convW i)
         (parameters.convb i) s t })

/-- The 2×2 stride-1 pooling window maximum of the biased valid
convolution map, at window position (r, c): the specification's
description of each entry of `conv_forward`'s output. -/
def spec_window_max (X1 : Matrix (Fin 28) (Fin 28) α)
    (W : Matrix (Fin 3) (Fin 3) α) (b : α) (r c : Fin 25) : α :=
  max (max (convolve2d_valid X1 W ⟨r.val, by omega⟩ ⟨c.val, by omega⟩ + b)
           (convolve2d_valid X1 W ⟨r.val, by omega⟩ ⟨c.val + 1, by omega⟩ + b))
      (max (convolve2d_valid X1 W ⟨r.val + 1, by omega⟩ ⟨c.val, by omega⟩ + b)
           (convolve2d_valid X1 W ⟨r.val + 1, by omega⟩ ⟨c.val + 1, by omega⟩ + b))

/-- The composite repeat-trim-group-max pipeline of the source computes
exactly the stride-1 2×2 window maximum. -/
lemma conv_pool_single_eq_spec_window_max (X1 : Matrix (Fin 28) (Fin 28) α)
    (W : Matrix (Fin 3) (Fin 3) α) (b : α) (r c : Fin 25) :
    conv_pool_single X1 W b r c = spec_window_max X1 W b r c := by
  simp only [conv_pool_single, pool_group_max, trim_border, np_repeat2,
    spec_window_max, Fin.val_mk]
  refine congrArg₂ max (congrArg₂ max ?_ ?_) (congrArg₂ max ?_ ?_) <;>
    refine congrArg₂ (fun (u v : Fin 26) => convolve2d_valid X1 W u v + b)
      (Fin.ext ?_) (Fin.ext ?_) <;>
    simp only [Fin.val_mk] <;> omega

/-- C1: for every 28×28×m input batch and every filter bank,
`conv_forward` returns a 3125×m matrix in which, for filter `i` (0-based;
the claim's filter `i+1`), row 625·i + 25·r + c of column j is the
maximum over the stride-1 2×2 window at (r, c) of the valid 2D
convolution of sample j with that filter plus its bias. -/
theorem C1_conv_forward_pools_valid_convolution [DecidableEq α] {m : ℕ}
    (X : Fin 28 → Fin 28 → Fin m → α) (parameters : ConvParams α)
    (i : Fin 5) (r c : Fin 25) (j : Fin m) :
    (conv_forward X parameters).1
        ⟨625 * i.val + 25 * r.val + c.val, by omega⟩ j =
      spec_window_max (fun u v => X u v j) (parameters.convW i)
        (parameters.convb i) r c := by
  simp only [conv_forward, Fin.val_mk]
  rw [show (⟨(625 * i.val + 25 * r.val + c.val) / 625, by omega⟩ : Fin 5) = i from
      Fin.ext (by simp only [Fin.val_mk]; omega)]
  rw [show (⟨(625 * i.val + 25 * r.val + c.val) % 625 / 25, by omega⟩ : Fin 25) = r from
      Fin.ext (by simp only [Fin.val_mk]; omega)]
  rw [show (⟨(625 * i.val + 25 * r.val + c.val) % 625 % 25, by omega⟩ : Fin 25) = c from
      Fin.ext (by simp only [Fin.val_mk]; omega)]
  exact conv_pool_single_eq_spec_window_max _ _ _ r c

/-- One pre-pool value of the 2×2 pooling window at (r, c): the biased
valid-convolution value at (r + dr, c + dc). -/
def window_entry (X1 : Matrix (Fin 28) (Fin 28) α) (W : Matrix (Fin 3) (Fin 3) α)
    (b : α) (r c : Fin 25) (dr dc : Fin 2) : α :=
  convolve2d_valid X1 W ⟨r.val + dr.val, by omega⟩ ⟨c.val + dc.val, by omega⟩ + b

lemma spec_window_max_eq_max_entries (X1 : Matrix (Fin 28) (Fin 28) α)
    (W : Matrix (Fin 3) (Fin 3) α) (b : α) (r c : Fin 25) :
    spec_window_max X1 W b r c =
      max (max (window_entry X1 W b r c 0 0) (window_entry X1 W b r c 0 1))
          (max (window_entry X1 W b r c 1 0) (window_entry X1 W b r c 1 1)) := by
  simp only [spec_window_max, window_entry]
  refine congrArg₂ max (congrArg₂ max ?_ ?_) (congrArg₂ max ?_ ?_) <;>
    refine congrArg₂ (fun (u v : Fin 26) => convolve2d_valid X1 W u v + b)
      (Fin.ext ?_) (Fin.ext ?_) <;>
    simp only [Fin.val_mk, Fin.val_zero, Fin.val_one] <;> omega

/-- Each entry of the recorded mask group for the window at (r, c) is 1
precisely when the corresponding pre-pool value equals the pooled
maximum of that window. -/
lemma conv_mask_single_eq [DecidableEq α] (X1 : Matrix (Fin 28) (Fin 28) α)
    (W : Matrix (Fin 3) (Fin 3) α) (b : α) (r c : Fin 25) (dr dc : Fin 2) :
    conv_mask_single X1 W b ⟨2 * r.val + dr.val, by omega⟩
        ⟨2 * c.val + dc.val, by omega⟩ =
      if window_entry X1 W b r c dr dc = spec_window_max X1 W b r c then 1
      else 0 := by
  have hA : convolve2d_valid X1 W ⟨(2 * r.val + dr.val + 1) / 2, by omega⟩
        ⟨(2 * c.val + dc.val + 1) / 2, by omega⟩ + b =
      window_entry X1 W b r c dr dc :=
    congrArg₂ (fun u v : Fin 26 => convolve2d_valid X1 W u v + b)
      (Fin.ext (by simp only [Fin.val_mk]; omega))
      (Fin.ext (by simp only [Fin.val_mk]; omega))
  have hB : conv_pool_single X1 W b ⟨(2 * r.val + dr.val) / 2, by omega⟩
        ⟨(2 * c.val + dc.val) / 2, by omega⟩ = spec_window_max X1 W b r c := by
    rw [conv_pool_single_eq_spec_window_max]
    exact congrArg₂ (spec_window_max X1 W b)
      (Fin.ext (by simp only [Fin.val_mk]; omega))
      (Fin.ext (by simp only [Fin.val_mk]; omega))
  simp only [conv_mask_single, np_equal_mask, trim_border, np_repeat2, Fin.val_mk]
  simp only [hA, hB]

lemma exists_window_entry_eq_spec_window_max (X1 : Matrix (Fin 28) (Fin 28) α)
    (W : Matrix (Fin 3) (Fin 3) α) (b : α) (r c : Fin 25) :
    ∃ dr dc : Fin 2,
      window_entry X1 W b r c dr dc = spec_window_max X1 W b r c := by
  rw [spec_window_max_eq_max_entries]
  rcases max_choice
      (max (window_entry X1 W b r c 0 0) (window_entry X1 W b r c 0 1))
      (max (window_entry X1 W b r c 1 0) (window_entry X1 W b r c 1 1)) with
    h1 | h1 <;>
    [rcases max_choice (window_entry X1 W b r c 0 0)
        (window_entry X1 W b r c 0 1) with h2 | h2;
     rcases max_choice (window_entry X1 W b r c 1 0)
        (window_entry X1 W b r c 1 1) with h2 | h2]
  · exact ⟨0, 0, by rw [h1, h2]⟩
  · exact ⟨0, 1, by rw [h1, h2]⟩
  · exact ⟨1, 0, by rw [h1, h2]⟩
  · exact ⟨1, 1, by rw [h1, h2]⟩

/-- C10: in every cache produced by `conv_forward`, for every sample,
filter and 25×25 pooling window, the 2×2 group of mask entries is 1
exactly at the window positions whose pre-pool value equals the window
maximum; and every group contains at least one entry equal to 1, so the
pooled gradient is routed to at least one position of its window. -/
theorem C10_pool_mask_marks_window_maxima [DecidableEq α] {m : ℕ}
    (X : Fin 28 → Fin 28 → Fin m → α) (parameters : ConvParams α)
    (i : Fin 5) (j : Fin m) (r c : Fin 25) :
    (∀ dr dc : Fin 2,
      (conv_forward X parameters).2.masks ⟨2 * r.val + dr.val, by omega⟩
          ⟨2 * c.val + dc.val, by omega⟩ i j = 1 ↔
        window_entry (fun u v => X u v j) (parameters.convW i)
            (parameters.convb i) r c dr dc =
          spec_window_max (fun u v => X u v j) (parameters.convW i)
            (parameters.convb i) r c) ∧
    (∃ dr dc : Fin 2,
      (conv_forward X parameters).2.masks ⟨2 * r.val + dr.val, by omega⟩
          ⟨2 * c.val + dc.val, by omega⟩ i j = 1) := by
  have hmask : ∀ dr dc : Fin 2,
      (conv_forward X parameters).2.masks ⟨2 * r.val + dr.val, by omega⟩
          ⟨2 * c.val + dc.val, by omega⟩ i j =
        if window_entry (fun u v => X u v j) (parameters.convW i)
            (parameters.convb i) r c dr dc =
          spec_window_max (fun u v => X u v j) (parameters.convW i)
            (parameters.convb i) r c then 1 else 0 := by
    intro dr dc
    show conv_mask_single (fun u v => X u v j) (parameters.convW i)
        (parameters.convb i) ⟨2 * r.val + dr.val, by omega⟩
        ⟨2 * c.val + dc.val, by omega⟩ = _
    exact conv_mask_single_eq (fun u v => X u v j) (parameters.convW i)
      (parameters.convb i) r c dr dc
  constructor
  · intro dr dc
    rw [hmask dr dc]
    by_cases h : window_entry (fun u v => X u v j) (parameters.convW i)
        (parameters.convb i) r c dr dc =
      spec_window_max (fun u v => X u v j) (parameters.convW i)
        (parameters.convb i) r c <;> simp [h]
  · obtain ⟨dr, dc, h⟩ := exists_window_entry_eq_spec_window_max
      (fun u v => X u v j) (parameters.convW i) (parameters.convb i) r c
    exact ⟨dr, dc, by rw [hmask dr dc, if_pos h]⟩

/-- The pooling reversal of `conv_backward`: for filter block and sample,
the 25×25 gradient block is 2× upsampled (`np.repeat` twice), multiplied by
the stored mask, zero-padded with a one-cell border
(`np.pad(d, 1, 'constant', constant_values=0)`), and the 2×2 groups of the
resulting 52×52 array are summed (`d.reshape((26, 2, 26, 2))` then
`np.sum(d, axis=(1, 3))`), giving the 26·26·5 = 3380 rows of `dA_prev`. -/
def pool_backward {m : ℕ} (dA : Matrix (Fin 3125) (Fin m) α)
    (cache : ConvCache α m) : Matrix (Fin 3380) (Fin m) α :=
  fun idx i =>
    ∑ dr : Fin 2, ∑ dc : Fin 2,
      if h : 1 ≤ 2 * (idx.val % 676 / 26) + dr.val ∧
          2 * (idx.val % 676 / 26) + dr.val ≤ 50 ∧
          1 ≤ 2 * (idx.val % 676 % 26) + dc.val ∧
          2 * (idx.val % 676 % 26) + dc.val ≤ 50 then
        dA ⟨625 * (idx.val / 676) +
              25 * ((2 * (idx.val % 676 / 26) + dr.val - 1) / 2) +
              (2 * (idx.val % 676 % 26) + dc.val - 1) / 2, by omega⟩ i *
          ((cache.masks ⟨2 * (idx.val % 676 / 26) + dr.val - 1, by omega⟩
              ⟨2 * (idx.val % 676 % 26) + dc.val - 1, by omega⟩
              ⟨idx.val / 676, by omega⟩ i : ℤ) : α)
      else 0

/-- `conv_backward(dA, cache, parameters)`: reverses the pooling with the
stored masks, then, for every filter and each of the 676 positions of the
26×26 gradient map, accumulates the 3×3 input patch times that position's
gradient into dW (`dW += np.sum(Aslice * dZ[j], axis=2)`), and sums all
gradient values into db; both are divided by (m * 676).  The `parameters`
argument is in the source signature but unused. -/
def conv_backward {m : ℕ} (dA : Matrix (Fin 3125) (Fin m) α)
    (cache : ConvCache α m) (_parameters : ConvParams α) : ConvGrads α :=
  { dconvb := fun i =>
      (∑ pos : Fin 676, ∑ s : Fin m,
        pool_backward dA cache ⟨676 * i.val + pos.val, by omega⟩ s) /
        ((m : α) * 676)
    dconvW := fun i a b =>
      (∑ pos : Fin 676, ∑ s : Fin m,
        cache.A ⟨pos.val / 26 + a.val, by omega⟩
            ⟨pos.val % 26 + b.val, by omega⟩ s *
          pool_backward dA cache ⟨676 * i.val + pos.val, by omega⟩ s) /
        ((m : α) * 676) }

/-! ## Softmax cross-entropy head -/

/-- `np.max(Z, axis=0)` for one column: numpy reduces the column by
folding the binary maximum over its entries. -/
def np_colMax {β : Type} {n m : ℕ} [LinearOrder β] (Z : Matrix (Fin (n + 1)) (Fin m) β)
    (j : Fin m) : β :=
  (List.ofFn fun i : Fin n => Z i.succ j).foldl max (Z 0 j)

/-- The softmax activation computed by `softmax_cross_entropy_loss`:
`mZ = np.max(Z, axis=0); expZ = np.exp(Z - mZ); A = expZ / np.sum(expZ,
axis=0)`. -/
noncomputable def softmax {n m : ℕ} (Z : Matrix (Fin (n + 1)) (Fin m) ℝ) :
    Matrix (Fin (n + 1)) (Fin m) ℝ :=
  fun i j => Real.exp (Z i j - np_colMax Z j) /
    ∑ k, Real.exp (Z k j - np_colMax Z j)

/-- C5: every column of the softmax activation returned by the
softmax-cross-entropy forward pass sums to 1. -/
theorem C5_softmax_columns_sum_to_one {n m : ℕ}
    (Z : Matrix (Fin (n + 1)) (Fin m) ℝ) (j : Fin m) :
    ∑ i, softmax Z i j = 1 := by
  have hpos : 0 < ∑ k, Real.exp (Z k j - np_colMax Z j) :=
    Finset.sum_pos (fun k _ => Real.exp_pos _) Finset.univ_nonempty
  simp only [softmax]
  rw [← Finset.sum_div]
  exact div_self hpos.ne'

/-- `softmax_cross_entropy_loss(Z, Y)` with every label in range (labels
modelled as `Fin (n+1)`): returns the softmax activations A, the cache
(which retains A), and the loss `-np.mean(np.log(IA))` where
`IA = [A[Y[0][i]][i] for i in range(Y.size)]` mapped through the clamp
`IA = (np.array(IA) - 0.5) * 0.9999999999 + 0.5`. -/
noncomputable def softmax_cross_entropy_loss {n m : ℕ}
    (Z : Matrix (Fin (n + 1)) (Fin m) ℝ) (Y : Fin m → Fin (n + 1)) :
    Matrix (Fin (n + 1)) (Fin m) ℝ × Matrix (Fin (n + 1)) (Fin m) ℝ × ℝ :=
  let A := softmax Z
  let IA := (List.ofFn fun i : Fin m => A (Y i) i).map
    fun p => (p - 0.5) * 0.9999999999 + 0.5
  (A, A, -((IA.map Real.log).sum / ((IA.map Real.log).length : ℝ)))

/-- `softmax_cross_entropy_loss_der(Y, cache)` with in-range labels:
`dZ = A.copy()`, then `dZ[Y[0][i]][i] -= 1` for every sample i. -/
def softmax_cross_entropy_loss_der {n m : ℕ} (Y : Fin m → Fin (n + 1))
    (cacheA : Matrix (Fin (n + 1)) (Fin m) α) :
    Matrix (Fin (n + 1)) (Fin m) α :=
  fun r i => cacheA r i - if r = Y i then 1 else 0

/-- C6: for every input Z and every row of in-range labels, the loss
returned by the softmax-cross-entropy forward pass equals the negative
mean over the batch of log of the clamped true-class probability
p' = (p - 0.5) · 0.9999999999 + 0.5 with p = A[yᵢ, i]. -/
theorem C6_loss_is_clamped_log_mean {n m : ℕ}
    (Z : Matrix (Fin (n + 1)) (Fin (m + 1)) ℝ) (Y : Fin (m + 1) → Fin (n + 1)) :
    (softmax_cross_entropy_loss Z Y).2.2 =
      -((∑ i : Fin (m + 1),
          Real.log ((softmax Z (Y i) i - 0.5) * 0.9999999999 + 0.5)) /
        ((m + 1 : ℕ) : ℝ)) := by
  simp only [softmax_cross_entropy_loss, List.map_ofFn, List.sum_ofFn,
    List.length_ofFn, Function.comp]

/-! ## numpy integer indexing of the label row -/

/-- numpy integer indexing into an axis of length n: an index y is
accepted iff -n ≤ y < n; negative indices wrap around to y + n; any
other index raises IndexError (modelled as `none`). -/
def np_index (n : ℕ) (y : ℤ) : Option (Fin n) :=
  if h : 0 ≤ y ∧ y < (n : ℤ) then some ⟨y.toNat, by omega⟩
  else if h2 : -(n : ℤ) ≤ y ∧ y < 0 then some ⟨(y + n).toNat, by omega⟩
  else none

lemma np_index_isSome_iff (n : ℕ) (y : ℤ) :
    (np_index n y).isSome = true ↔ -(n : ℤ) ≤ y ∧ y < (n : ℤ) := by
  unfold np_index
  split
  · simp only [Option.isSome_some, true_iff]
    omega
  · split
    · simp only [Option.isSome_some, true_iff]
      omega
    · simp only [Option.isSome_none, Bool.false_eq_true, false_iff]
      omega

/-- Sequencing of a list of fallible values: the whole list is produced
iff every element is (a Python list comprehension aborts at the first
failing element). -/
def option_all {γ : Type} : List (Option γ) → Option (List γ)
  | [] => some []
  | none :: _ => none
  | some x :: l => (option_all l).map fun xs => x :: xs

/-- `softmax_cross_entropy_loss(Z, Y)` with the label row modelled as raw
integers and numpy's index checking made explicit: the comprehension
`IA = [A[Y[0][i]][i] for i in range(Y.size)]` fails with an index error
iff some label is outside numpy's accepted range. -/
noncomputable def softmax_cross_entropy_loss_checked {n m : ℕ}
    (Z : Matrix (Fin (n + 1)) (Fin m) ℝ) (Y : Fin m → ℤ) :
    Option (Matrix (Fin (n + 1)) (Fin m) ℝ ×
      Matrix (Fin (n + 1)) (Fin m) ℝ × ℝ) :=
  let A := softmax Z
  (option_all (List.ofFn fun i : Fin m =>
      (np_index (n + 1) (Y i)).map fun r => A r i)).map
    fun IA0 =>
      let IA := IA0.map fun p => (p - 0.5) * 0.9999999999 + 0.5
      (A, A, -((IA.map Real.log).sum / ((IA.map Real.log).length : ℝ)))

/-- `softmax_cross_entropy_loss_der(Y, cache)` with raw integer labels:
the loop `for i in range(Y.size): dZ[Y[0][i]][i] -= 1` over a copy of the
cached activations, failing with an index error iff some label is outside
numpy's accepted range. -/
def softmax_cross_entropy_loss_der_checked {n m : ℕ} (Y : Fin m → ℤ)
    (cacheA : Matrix (Fin (n + 1)) (Fin m) α) :
    Option (Matrix (Fin (n + 1)) (Fin m) α) :=
  (List.finRange m).foldlM
    (fun (dZ : Matrix (Fin (n + 1)) (Fin m) α) i =>
      (np_index (n + 1) (Y i)).map
        fun r => fun r' i' => if r' = r ∧ i' = i then dZ r' i' - 1 else dZ r' i')
    cacheA

lemma isSome_option_map {γ δ : Type} (f : γ → δ) (o : Option γ) :
    (o.map f).isSome = o.isSome := by
  cases o <;> rfl

lemma option_all_isSome_iff {γ : Type} (l : List (Option γ)) :
    (option_all l).isSome = true ↔ ∀ x ∈ l, x.isSome = true := by
  induction l with
  | nil => simp [option_all]
  | cons a l ih =>
    cases a with
    | none => simp [option_all]
    | some v => simp [option_all, isSome_option_map, ih]

lemma foldlM_map_isSome_iff {β γ ι : Type} (o : ι → Option γ)
    (g : β → ι → γ → β) (l : List ι) (acc : β) :
    (l.foldlM (fun a i => (o i).map (g a i)) acc).isSome = true ↔
      ∀ i ∈ l, (o i).isSome = true := by
  induction l generalizing acc with
  | nil => simp [List.foldlM]
  | cons i l ih =>
    cases ho : o i with
    | none => simp [List.foldlM_cons, ho]
    | some v => simp [List.foldlM_cons, ho, ih]

lemma loss_checked_isSome_iff {n m : ℕ} (Z : Matrix (Fin (n + 1)) (Fin m) ℝ)
    (Y : Fin m → ℤ) :
    (softmax_cross_entropy_loss_checked Z Y).isSome = true ↔
      ∀ i, -(n + 1 : ℤ) ≤ Y i ∧ Y i < (n + 1 : ℤ) := by
  unfold softmax_cross_entropy_loss_checked
  rw [isSome_option_map]
  rw [option_all_isSome_iff]
  constructor
  · intro h i
    have := h ((np_index (n + 1) (Y i)).map fun r => softmax Z r i)
      (by rw [List.mem_ofFn]; exact ⟨i, rfl⟩)
    rw [isSome_option_map, np_index_isSome_iff] at this
    exact_mod_cast this
  · intro h x hx
    rw [List.mem_ofFn] at hx
    obtain ⟨i, rfl⟩ := hx
    rw [isSome_option_map, np_index_isSome_iff]
    exact_mod_cast h i

lemma der_checked_isSome_iff {n m : ℕ} (Y : Fin m → ℤ)
    (cacheA : Matrix (Fin (n + 1)) (Fin m) α) :
    (softmax_cross_entropy_loss_der_checked Y cacheA).isSome = true ↔
      ∀ i, -(n + 1 : ℤ) ≤ Y i ∧ Y i < (n + 1 : ℤ) := by
  unfold softmax_cross_entropy_loss_der_checked
  rw [foldlM_map_isSome_iff]
  constructor
  · intro h i
    have := h i (List.mem_finRange i)
    rw [np_index_isSome_iff] at this
    exact_mod_cast this
  · intro h i _
    rw [np_index_isSome_iff]
    exact_mod_cast h i

/-- C8 (amended): the softmax-cross-entropy forward with labels and its
backward succeed exactly when every label lies in the numpy-accepted
range [-rows(A), rows(A)); in particular labels in [0, rows(A)) always
succeed, but negative labels down to -rows(A) also succeed (they wrap
around) instead of failing as the claim stated. -/
theorem C8_label_range_amended {n m : ℕ} (Z : Matrix (Fin (n + 1)) (Fin m) ℝ)
    (Y : Fin m → ℤ) (cacheA : Matrix (Fin (n + 1)) (Fin m) ℝ) :
    ((softmax_cross_entropy_loss_checked Z Y).isSome = true ↔
      ∀ i, -(n + 1 : ℤ) ≤ Y i ∧ Y i < (n + 1 : ℤ)) ∧
    ((softmax_cross_entropy_loss_der_checked Y cacheA).isSome = true ↔
      ∀ i, -(n + 1 : ℤ) ≤ Y i ∧ Y i < (n + 1 : ℤ)) :=
  ⟨loss_checked_isSome_iff Z Y, der_checked_isSome_iff Y cacheA⟩

/-- C8 (counterexample to the claim as stated): with two classes, one
sample and label -1 — a label outside [0, rows(A)) — both the forward
pass and the backward pass succeed (numpy wraps the negative index), so
failure is not equivalent to a label lying outside [0, rows(A)). -/
theorem C8_negative_label_does_not_fail :
    (softmax_cross_entropy_loss_checked (fun _ _ => (0 : ℝ))
        (fun _ : Fin 1 => (-1 : ℤ)) (n := 1)).isSome = true ∧
    (softmax_cross_entropy_loss_der_checked (fun _ : Fin 1 => (-1 : ℤ))
        (fun _ _ => (0 : ℝ)) (n := 1)).isSome = true ∧
    ¬ (0 ≤ (-1 : ℤ)) := by
  refine ⟨?_, ?_, by omega⟩
  · rw [loss_checked_isSome_iff]
    intro i
    omega
  · rw [der_checked_isSome_iff]
    intro i
    omega

/-! ## Dense parameter store -/

/-- The dense parameters {"W1","b1",...,"WL","bL"}: one (W, b) record per
layer, indexed by the list of layer input widths and the output width o;
`last` is the final (output) layer.  A chain of the same shape also
stores the per-layer gradients {"dW1","db1",...}. -/
inductive DenseChain (α : Type) (o : ℕ) : List ℕ → Type
  | last {i : ℕ} (W : Matrix (Fin o) (Fin i) α) (b : Fin o → α) :
      DenseChain α o [i]
  | cons {i h : ℕ} {rest : List ℕ} (W : Matrix (Fin h) (Fin i) α)
      (b : Fin h → α) (tail : DenseChain α o (h :: rest)) :
      DenseChain α o (i :: h :: rest)

/-- The ordered per-layer caches built by `multi_layer_forward`: each relu
layer keeps its linear cache (the layer input) and its activation cache
(the pre-activation Z); the final linear layer keeps only its linear
cache (the linear activation's cache is empty). -/
inductive CacheChain (α : Type) (m : ℕ) : List ℕ → Type
  | last {i : ℕ} (A_prev : Matrix (Fin i) (Fin m) α) : CacheChain α m [i]
  | cons {i h : ℕ} {rest : List ℕ} (A_prev : Matrix (Fin i) (Fin m) α)
      (Z : Matrix (Fin h) (Fin m) α) (tail : CacheChain α m (h :: rest)) :
      CacheChain α m (i :: h :: rest)

/-- `multi_layer_forward(X, parameters)`: L-1 relu layers followed by the
final linear layer, threading each activation output forward; returns the
pre-softmax output and the ordered per-layer caches. -/
def multi_layer_forward {o m : ℕ} :
    {dims : List ℕ} → DenseChain α o dims →
      Matrix (Fin (dims.headD 0)) (Fin m) α →
      Matrix (Fin o) (Fin m) α × CacheChain α m dims
  | _, .last W b, A =>
    ((linear (linear_forward A W b).1).1, .last (linear_forward A W b).2)
  | _, .cons W b tail, A =>
    let fwd := multi_layer_forward tail (relu (linear_forward A W b).1).1
    (fwd.1, .cons (linear_forward A W b).2 (relu (linear_forward A W b).1).2 fwd.2)

/-- `multi_layer_backward(dAL, caches, parameters)`: walks the caches in
reverse; the output layer uses the linear derivative, every other layer
the relu derivative; accumulates the per-layer (dW, db) pairs and
forwards the final dA (the gradient into the convolution stage). -/
def multi_layer_backward {o m : ℕ} :
    {dims : List ℕ} → Matrix (Fin o) (Fin m) α → CacheChain α m dims →
      DenseChain α o dims →
      DenseChain α o dims × Matrix (Fin (dims.headD 0)) (Fin m) α
  | _, dAL, .last A_prev, .last W b =>
    let bw := linear_backward (linear_der dAL) A_prev W b
    (.last bw.2.1 bw.2.2, bw.1)
  | _, dAL, .cons A_prev Z ctail, .cons W b ptail =>
    let bwtail := multi_layer_backward dAL ctail ptail
    let bw := linear_backward (relu_der bwtail.2 Z) A_prev W b
    (.cons bw.2.1 bw.2.2 bwtail.1, bw.1)

/-! ## Parameter store updates -/

/-- The body of `update_parameters`' loop: every weight and bias is
decremented by alpha times its gradient. -/
def dense_step {o : ℕ} :
    {dims : List ℕ} → DenseChain α o dims → DenseChain α o dims → α →
      DenseChain α o dims
  | _, .last W b, .last dW db, alpha =>
    .last (fun r c => W r c - alpha * dW r c) (fun r => b r - alpha * db r)
  | _, .cons W b tail, .cons dW db gtail, alpha =>
    .cons (fun r c => W r c - alpha * dW r c) (fun r => b r - alpha * db r)
      (dense_step tail gtail alpha)

/-- `update_parameters(parameters, gradients, epoch, learning_rate,
decay_rate)`: `alpha = learning_rate * (1 / (1 + decay_rate * epoch))`;
every weight and bias is decremented by alpha times its gradient; returns
the updated parameters and alpha. -/
def update_parameters {o : ℕ} {dims : List ℕ} (parameters : DenseChain α o dims)
    (gradients : DenseChain α o dims) (epoch : ℕ)
    (learning_rate decay_rate : α) : DenseChain α o dims × α :=
  (dense_step parameters gradients
      (learning_rate * (1 / (1 + decay_rate * (epoch : α)))),
   learning_rate * (1 / (1 + decay_rate * (epoch : α))))

/-- `update_conv(parameters, gradients, alpha)`: the five filters and
biases are decremented by alpha times their gradients, reusing the alpha
computed by `update_parameters` in the same epoch. -/
def update_conv (parameters : ConvParams α) (gradients : ConvGrads α)
    (alpha : α) : ConvParams α :=
  { convW := fun i a b => parameters.convW i a b - alpha * gradients.dconvW i a b
    convb := fun i => parameters.convb i - alpha * gradients.dconvb i }

/-- The per-epoch parameter-update portion of the training loop with
arbitrary per-epoch gradients: each epoch runs the dense update and then
the convolution update with the dense update's effective rate. -/
def run_updates {o : ℕ} {dims : List ℕ} (gd : ℕ → DenseChain α o dims)
    (cg : ℕ → ConvGrads α) (learning_rate decay_rate : α)
    (state : DenseChain α o dims × ConvParams α) :
    ℕ → DenseChain α o dims × ConvParams α
  | 0 => state
  | e + 1 =>
    let prev := run_updates gd cg learning_rate decay_rate state e
    let upd := update_parameters prev.1 (gd e) e learning_rate decay_rate
    (upd.1, update_conv prev.2 (cg e) upd.2)

lemma dense_step_zero {o : ℕ} :
    ∀ {dims : List ℕ} (p g : DenseChain α o dims), dense_step p g (0 : α) = p
  | _, .last W b, .last dW db => by
    simp [dense_step]
  | _, .cons W b tail, .cons dW db gtail => by
    simp [dense_step]
    exact dense_step_zero tail gtail

lemma update_conv_zero (cp : ConvParams α) (g : ConvGrads α) :
    update_conv cp g (0 : α) = cp := by
  cases cp
  simp [update_conv]

/-- C7: with learning_rate = 0 the effective rate
learning_rate / (1 + decay_rate · epoch) is 0, so a dense update (for any
gradients, epoch and decay rate) returns the parameters unchanged, the
convolution update with the resulting effective rate returns the filter
bank unchanged, and any number of repeated update epochs leaves the whole
parameter store unchanged. -/
theorem C7_zero_learning_rate_changes_nothing {o : ℕ} {dims : List ℕ}
    (p : DenseChain α o dims) (cp : ConvParams α)
    (gd : ℕ → DenseChain α o dims) (cg : ℕ → ConvGrads α)
    (decay_rate : α) (epoch nepochs : ℕ) :
    (update_parameters p (gd epoch) epoch (0 : α) decay_rate).1 = p ∧
    (update_parameters p (gd epoch) epoch (0 : α) decay_rate).2 = 0 ∧
    update_conv cp (cg epoch)
      (update_parameters p (gd epoch) epoch (0 : α) decay_rate).2 = cp ∧
    run_updates gd cg (0 : α) decay_rate (p, cp) nepochs = (p, cp) := by
  have halpha : ∀ e : ℕ, (0 : α) * (1 / (1 + decay_rate * (e : α))) = 0 :=
    fun e => zero_mul _
  refine ⟨?_, halpha epoch, ?_, ?_⟩
  · show dense_step p (gd epoch) _ = p
    rw [halpha epoch]
    exact dense_step_zero p (gd epoch)
  · show update_conv cp (cg epoch) ((0 : α) * _) = cp
    rw [halpha epoch]
    exact update_conv_zero cp (cg epoch)
  · induction nepochs with
    | zero => rfl
    | succ e ih =>
      show (let prev := run_updates gd cg 0 decay_rate (p, cp) e
            let upd := update_parameters prev.1 (gd e) e 0 decay_rate
            (upd.1, update_conv prev.2 (cg e) upd.2)) = (p, cp)
      rw [ih]
      show (dense_step p (gd e) _, update_conv cp (cg e) ((0 : α) * _)) = (p, cp)
      rw [halpha e]
      rw [dense_step_zero p (gd e), update_conv_zero cp (cg e)]

/-! ## Classifier -/

/-- `np.argmax(A, axis=0)` on one column: numpy scans the column in
order keeping the first index whose value strictly exceeds the running
best, so among tied maxima the lowest index wins. -/
def np_argmax_col {β : Type} [LinearOrder β] {n : ℕ} (v : Fin (n + 1) → β) :
    Fin (n + 1) :=
  (List.finRange (n + 1)).foldl (fun best i => if v best < v i then i else best) 0

lemma argmax_drop_spec {β : Type} [LinearOrder β] {N : ℕ} (v : Fin N → β) :
    ∀ (d j : ℕ), j + d = N → ∀ (b : Fin N),
      (∀ k : Fin N, k.val < j → v k ≤ v b) →
      (∀ k : Fin N, k < b → v k < v b) →
      (∀ k : Fin N,
        v k ≤ v (((List.finRange N).drop j).foldl
          (fun best i => if v best < v i then i else best) b)) ∧
      (∀ k : Fin N,
        k < ((List.finRange N).drop j).foldl
          (fun best i => if v best < v i then i else best) b →
        v k < v (((List.finRange N).drop j).foldl
          (fun best i => if v best < v i then i else best) b)) := by
  intro d
  induction d with
  | zero =>
    intro j hj b h1 h2
    have hnil : (List.finRange N).drop j = [] :=
      List.drop_eq_nil_of_le (by simp [List.length_finRange]; omega)
    rw [hnil]
    exact ⟨fun k => h1 k (by omega), h2⟩
  | succ d ih =>
    intro j hj b h1 h2
    have hjN : j < N := by omega
    have hlen : j < (List.finRange N).length := by
      simp [List.length_finRange]; omega
    have hdrop : (List.finRange N).drop j =
        (List.finRange N)[j] :: (List.finRange N).drop (j + 1) :=
      List.drop_eq_getElem_cons hlen
    have hget : (List.finRange N)[j] = ⟨j, hjN⟩ := by
      apply Fin.ext
      simp
    rw [hdrop, hget, List.foldl_cons]
    refine ih (j + 1) (by omega) _ ?_ ?_
    · intro k hk
      by_cases hcmp : v b < v ⟨j, hjN⟩
      · rw [if_pos hcmp]
        rcases Nat.lt_or_ge k.val j with hlt | hge
        · exact le_of_lt (lt_of_le_of_lt (h1 k hlt) hcmp)
        · have : k = ⟨j, hjN⟩ := Fin.ext (by simp only [Fin.val_mk]; omega)
          rw [this]
      · rw [if_neg hcmp]
        rcases Nat.lt_or_ge k.val j with hlt | hge
        · exact h1 k hlt
        · have : k = ⟨j, hjN⟩ := Fin.ext (by simp only [Fin.val_mk]; omega)
          rw [this]
          exact le_of_not_lt hcmp
    · intro k hk
      by_cases hcmp : v b < v ⟨j, hjN⟩
      · rw [if_pos hcmp] at hk ⊢
        have hkj : k.val < j := by
          have hkv := hk
          simp only [Fin.lt_def, Fin.val_mk] at hkv
          omega
        exact lt_of_le_of_lt (h1 k hkj) hcmp
      · rw [if_neg hcmp] at hk ⊢
        exact h2 k hk

/-- `np_argmax_col` returns an index attaining the column maximum, and
every strictly earlier index has a strictly smaller value (numpy's
lowest-index tie-break). -/
lemma np_argmax_col_spec {β : Type} [LinearOrder β] {n : ℕ}
    (v : Fin (n + 1) → β) :
    (∀ k, v k ≤ v (np_argmax_col v)) ∧
    (∀ k, k < np_argmax_col v → v k < v (np_argmax_col v)) := by
  have h := argmax_drop_spec v (n + 1) 0 (by omega) 0
    (fun k hk => absurd hk (by omega))
    (fun k hk => absurd hk (by
      intro hlt
      have : k.val < 0 := hlt
      omega))
  simpa [np_argmax_col] using h

lemma np_argmax_col_const {β : Type} [LinearOrder β] {n : ℕ}
    (v : Fin (n + 1) → β) (h : ∀ k, v k = v 0) : np_argmax_col v = 0 := by
  by_contra hne
  have hpos : (0 : Fin (n + 1)) < np_argmax_col v :=
    Fin.pos_of_ne_zero hne
  have hlt := (np_argmax_col_spec v).2 0 hpos
  rw [h (np_argmax_col v)] at hlt
  exact lt_irrefl _ hlt

/-- `classify(X, parameters, convParameters)`: convolution forward, dense
forward, softmax forward without labels, then the per-sample
`np.argmax(A, axis=0)`. -/
noncomputable def classify {o m : ℕ} {rest : List ℕ}
    (X : Fin 28 → Fin 28 → Fin m → ℝ)
    (parameters : DenseChain ℝ (o + 1) (3125 :: rest))
    (convParameters : ConvParams ℝ) : Fin m → Fin (o + 1) :=
  fun j => np_argmax_col fun i =>
    softmax (multi_layer_forward parameters
      (conv_forward X convParameters).1).1 i j

/-- All dense weights and biases are zero. -/
def DenseChain.IsZeroParams {o : ℕ} :
    {dims : List ℕ} → DenseChain α o dims → Prop
  | _, .last W b => W = (fun _ _ => 0) ∧ b = (fun _ => 0)
  | _, .cons W b tail => W = (fun _ _ => 0) ∧ b = (fun _ => 0) ∧
      tail.IsZeroParams

/-- The all-zero filter bank. -/
def zero_conv_params : ConvParams α :=
  { convW := fun _ => fun _ _ => 0, convb := fun _ => 0 }

lemma conv_forward_zero_input [DecidableEq α] {m : ℕ} (k : Fin 3125)
    (j : Fin m) :
    (conv_forward (m := m) (fun _ _ _ => (0 : α)) zero_conv_params).1 k j =
      0 := by
  show conv_pool_single _ _ _ _ _ = 0
  simp [conv_pool_single, pool_group_max, trim_border, np_repeat2,
    convolve2d_valid, zero_conv_params]

lemma multi_layer_forward_zero {o m : ℕ} :
    ∀ {dims : List ℕ} (p : DenseChain α o dims)
      (A : Matrix (Fin (dims.headD 0)) (Fin m) α), p.IsZeroParams →
      (∀ i j, A i j = 0) → ∀ i j, (multi_layer_forward p A).1 i j = 0
  | _, .last W b, A, hz, hA, i, j => by
    obtain ⟨hW, hb⟩ := hz
    subst hW
    subst hb
    show (∑ k, _ * A k j) + _ = 0
    simp [hA]
  | _, .cons W b tail, A, hz, hA, i, j => by
    obtain ⟨hW, hb, htail⟩ := hz
    subst hW
    subst hb
    show (multi_layer_forward tail (relu (linear_forward A _ _).1).1).1 i j = 0
    refine multi_layer_forward_zero tail _ htail ?_ i j
    intro i2 j2
    simp [relu, linear_forward, hA]

/-- C9: `classify` returns, for every sample, the index of the maximal
entry of the softmax output column, breaking ties toward the lowest
index; in particular on an all-zero image batch with an all-zero
parameter store (uniform pre-softmax output) it returns class index 0
for every sample. -/
theorem C9_classify_is_lowest_argmax_of_softmax :
    (∀ (o m : ℕ) (rest : List ℕ) (X : Fin 28 → Fin 28 → Fin m → ℝ)
        (p : DenseChain ℝ (o + 1) (3125 :: rest)) (cp : ConvParams ℝ)
        (j : Fin m),
      (∀ k, softmax (multi_layer_forward p (conv_forward X cp).1).1 k j ≤
        softmax (multi_layer_forward p (conv_forward X cp).1).1
          (classify X p cp j) j) ∧
      (∀ k, k < classify X p cp j →
        softmax (multi_layer_forward p (conv_forward X cp).1).1 k j <
          softmax (multi_layer_forward p (conv_forward X cp).1).1
            (classify X p cp j) j)) ∧
    (∀ (o m : ℕ) (rest : List ℕ) (X : Fin 28 → Fin 28 → Fin m → ℝ)
        (p : DenseChain ℝ (o + 1) (3125 :: rest)) (cp : ConvParams ℝ)
        (j : Fin m), X = (fun _ _ _ => 0) → p.IsZeroParams →
        cp = zero_conv_params → classify X p cp j = 0) := by
  constructor
  · intro o m rest X p cp j
    exact np_argmax_col_spec _
  · intro o m rest X p cp j hX hp hcp
    subst hX
    subst hcp
    show np_argmax_col _ = 0
    apply np_argmax_col_const
    intro k
    have hM : ∀ (i : Fin (o + 1)) (jj : Fin m),
        (multi_layer_forward p
          (conv_forward (fun _ _ _ => (0 : ℝ)) zero_conv_params).1).1 i jj =
          0 :=
      multi_layer_forward_zero p _ hp fun i2 j2 =>
        conv_forward_zero_input i2 j2
    simp only [softmax]
    rw [hM k j, hM 0 j]

/-- A dense parameter store with a single linear layer 3125 → 10, all
zero. -/
def zero_dense_chain : DenseChain ℝ 10 [3125] :=
  .last (fun _ _ => 0) (fun _ => 0)

/-- Witness for C9: at a concrete all-zero batch of one 28×28 image and
the all-zero one-layer network, `classify` predicts class 0. -/
theorem C9_classify_witness :
    classify (fun _ _ _ => (0 : ℝ)) zero_dense_chain zero_conv_params
      (0 : Fin 1) = 0 :=
  C9_classify_is_lowest_argmax_of_softmax.2 9 1 [] _ zero_dense_chain _ 0
    rfl ⟨rfl, rfl⟩ rfl

/-! ## A concrete configuration for checking the convolution gradient

One sample, one active pixel X[2,2] = 1, filter 1 fixed to 1 at entry
(2,2) with its entry (0,0) treated as the variable of differentiation,
the other filters and all biases zero, a single dense (linear) layer with
the single weight 1352 reading pooled position (2,2) of filter 1, output
bias (0, 1352) so that the pre-softmax output is uniform, and label 0. -/

/-- The image: a single bright pixel at (2, 2). -/
def c2X : Fin 28 → Fin 28 → Fin 1 → ℝ :=
  fun u v _ => if u.val = 2 ∧ v.val = 2 then 1 else 0

/-- Filter 1 with its (0,0) entry set to s and its (2,2) entry fixed at
1. -/
def c2Filter (s : ℝ) : Matrix (Fin 3) (Fin 3) ℝ :=
  fun a b => if a.val = 2 ∧ b.val = 2 then 1
    else if a.val = 0 ∧ b.val = 0 then s else 0

/-- The filter bank holding `c2Filter s` as filter 1 and zeros
elsewhere. -/
def c2ConvParams (s : ℝ) : ConvParams ℝ :=
  { convW := fun i => if i.val = 0 then c2Filter s else fun _ _ => 0
    convb := fun _ => 0 }

/-- Dense weights: the output row 0 reads flattened feature 52 (pooled
position (2,2) of filter 1) with weight 1352. -/
def c2W1 : Matrix (Fin 2) (Fin 3125) ℝ :=
  fun r k => if r.val = 0 ∧ k.val = 52 then 1352 else 0

/-- Dense biases: (0, 1352), chosen so that both pre-softmax outputs are
equal at the evaluation point. -/
def c2b1 : Fin 2 → ℝ := fun r => if r.val = 0 then 0 else 1352

/-- The one-layer dense parameter store. -/
def c2Dense : DenseChain ℝ 2 [3125] := .last c2W1 c2b1

/-- The label row: the single sample has class 0. -/
def c2Y : Fin 1 → Fin 2 := fun _ => 0

/-- The training loss of the full pipeline (convolution-pooling forward,
dense forward, softmax-cross-entropy forward) as a function of filter 1's
entry (0, 0). -/
noncomputable def c2Loss (s : ℝ) : ℝ :=
  (softmax_cross_entropy_loss
    (multi_layer_forward c2Dense (conv_forward c2X (c2ConvParams s)).1).1
    c2Y).2.2

/-- The convolution gradients computed by the backward pass of the source
at the evaluation point s = 0: softmax-cross-entropy derivative, dense
backward, then `conv_backward`, exactly as in the training loop. -/
noncomputable def c2Gradients : ConvGrads ℝ :=
  conv_backward
    (multi_layer_backward
      (softmax_cross_entropy_loss_der c2Y
        (softmax_cross_entropy_loss
          (multi_layer_forward c2Dense
            (conv_forward c2X (c2ConvParams 0)).1).1 c2Y).2.1)
      (multi_layer_forward c2Dense (conv_forward c2X (c2ConvParams 0)).1).2
      c2Dense).2
    (conv_forward c2X (c2ConvParams 0)).2
    (c2ConvParams 0)

/-- Closed form of the valid convolution of the one-pixel image with the
one-parameter filter: the single pixel copies the (kernel-flipped) filter
onto positions (0..2, 0..2) of the 26×26 map. -/
lemma c2_conv_closed (X1 : Matrix (Fin 28) (Fin 28) ℝ)
    (F : Matrix (Fin 3) (Fin 3) ℝ) (s : ℝ)
    (hX : ∀ u v, X1 u v = if u.val = 2 ∧ v.val = 2 then 1 else 0)
    (hF : ∀ a b, F a b = if a.val = 2 ∧ b.val = 2 then 1
      else if a.val = 0 ∧ b.val = 0 then s else 0)
    (r c : Fin 26) :
    convolve2d_valid X1 F r c =
      if r.val = 2 ∧ c.val = 2 then 1
      else if r.val = 0 ∧ c.val = 0 then s else 0 := by
  simp only [convolve2d_valid, Fin.sum_univ_three, hX, hF, Fin.val_mk,
    Fin.val_zero, Fin.val_one, Fin.val_two]
  norm_num
  split_ifs <;> first | omega | simp

lemma c2_entry_22 (X1 : Matrix (Fin 28) (Fin 28) ℝ)
    (F : Matrix (Fin 3) (Fin 3) ℝ) (s : ℝ)
    (hX : ∀ u v, X1 u v = if u.val = 2 ∧ v.val = 2 then 1 else 0)
    (hF : ∀ a b, F a b = if a.val = 2 ∧ b.val = 2 then 1
      else if a.val = 0 ∧ b.val = 0 then s else 0) :
    window_entry X1 F 0 ⟨2, by omega⟩ ⟨2, by omega⟩ 0 0 = 1 := by
  simp only [window_entry, c2_conv_closed X1 F s hX hF, Fin.val_mk,
    Fin.val_zero]
  norm_num

lemma c2_spec_max_22 (X1 : Matrix (Fin 28) (Fin 28) ℝ)
    (F : Matrix (Fin 3) (Fin 3) ℝ) (s : ℝ)
    (hX : ∀ u v, X1 u v = if u.val = 2 ∧ v.val = 2 then 1 else 0)
    (hF : ∀ a b, F a b = if a.val = 2 ∧ b.val = 2 then 1
      else if a.val = 0 ∧ b.val = 0 then s else 0) :
    spec_window_max X1 F 0 ⟨2, by omega⟩ ⟨2, by omega⟩ = 1 := by
  rw [spec_window_max_eq_max_entries]
  simp only [window_entry, c2_conv_closed X1 F s hX hF, Fin.val_mk,
    Fin.val_zero, Fin.val_one]
  norm_num [max_def]

lemma c2_pooled_22 (X1 : Matrix (Fin 28) (Fin 28) ℝ)
    (F : Matrix (Fin 3) (Fin 3) ℝ) (s : ℝ)
    (hX : ∀ u v, X1 u v = if u.val = 2 ∧ v.val = 2 then 1 else 0)
    (hF : ∀ a b, F a b = if a.val = 2 ∧ b.val = 2 then 1
      else if a.val = 0 ∧ b.val = 0 then s else 0) :
    conv_pool_single X1 F 0 ⟨2, by omega⟩ ⟨2, by omega⟩ = 1 := by
  rw [conv_pool_single_eq_spec_window_max]
  exact c2_spec_max_22 X1 F s hX hF

/-- The flattened convolution feature 52 (filter 1, pooled position
(2, 2)) equals 1 for every value s of the filter entry (0, 0). -/
lemma c2_A0_52 (s : ℝ) :
    (conv_forward c2X (c2ConvParams s)).1 ⟨52, by omega⟩ 0 = 1 := by
  show conv_pool_single (fun u v => c2X u v 0) (c2Filter s) 0
    ⟨2, by omega⟩ ⟨2, by omega⟩ = 1
  exact c2_pooled_22 _ _ s (fun u v => rfl) (fun a b => rfl)

/-- Both pre-softmax outputs equal 1352, for every s. -/
lemma c2_AL (s : ℝ) (r : Fin 2) :
    (multi_layer_forward c2Dense (conv_forward c2X (c2ConvParams s)).1).1
      r 0 = 1352 := by
  show (∑ k : Fin 3125, c2W1 r k *
      (conv_forward c2X (c2ConvParams s)).1 k 0) + c2b1 r = 1352
  have hsum : (∑ k : Fin 3125, c2W1 r k *
      (conv_forward c2X (c2ConvParams s)).1 k 0) =
      if r.val = 0 then 1352 else 0 := by
    by_cases hr : r.val = 0
    · rw [if_pos hr]
      rw [Finset.sum_eq_single (⟨52, by omega⟩ : Fin 3125)]
      · rw [c2_A0_52 s]
        simp [c2W1, hr]
      · intro k _ hk
        have hne : ¬(r.val = 0 ∧ k.val = 52) := by
          intro hc
          exact hk (Fin.ext hc.2)
        simp [c2W1, hne]
      · intro hmem
        exact absurd (Finset.mem_univ _) hmem
    · rw [if_neg hr]
      apply Finset.sum_eq_zero
      intro k _
      simp [c2W1, hr]
  rw [hsum]
  by_cases hr : r.val = 0 <;> simp [c2b1, hr]

/-- The cached softmax activations are uniform: every entry is 1/2. -/
lemma c2_softmaxA (s : ℝ) (r : Fin 2) :
    (softmax_cross_entropy_loss
      (multi_layer_forward c2Dense (conv_forward c2X (c2ConvParams s)).1).1
      c2Y).2.1 r 0 = 1 / 2 := by
  show softmax
    (multi_layer_forward c2Dense (conv_forward c2X (c2ConvParams s)).1).1
    r 0 = 1 / 2
  have hAL := c2_AL s
  have hM : np_colMax
      (multi_layer_forward c2Dense (conv_forward c2X (c2ConvParams s)).1).1
      0 = 1352 := by
    simp only [np_colMax, List.ofFn_succ, List.ofFn_zero, List.foldl_cons,
      List.foldl_nil, hAL]
    exact max_self 1352
  simp only [softmax, hM, hAL, Fin.sum_univ_two]
  norm_num [Real.exp_zero]

/-- The gradient flowing from the dense stack into the convolution stage:
-676 at flattened feature 52 (= 1352 · (1/2 − 1)), zero elsewhere. -/
lemma c2_dA (k : Fin 3125) :
    (multi_layer_backward
      (softmax_cross_entropy_loss_der c2Y
        (softmax_cross_entropy_loss
          (multi_layer_forward c2Dense
            (conv_forward c2X (c2ConvParams 0)).1).1 c2Y).2.1)
      (multi_layer_forward c2Dense (conv_forward c2X (c2ConvParams 0)).1).2
      c2Dense).2 k 0 =
      if k.val = 52 then -676 else 0 := by
  show (∑ r : Fin 2, c2W1 r k *
      softmax_cross_entropy_loss_der c2Y
        (softmax_cross_entropy_loss
          (multi_layer_forward c2Dense
            (conv_forward c2X (c2ConvParams 0)).1).1 c2Y).2.1 r 0) = _
  rw [Fin.sum_univ_two]
  simp only [softmax_cross_entropy_loss_der]
  rw [c2_softmaxA 0 0, c2_softmaxA 0 1]
  rw [if_pos (show (0 : Fin 2) = c2Y 0 from rfl)]
  rw [if_neg (show ¬((1 : Fin 2) = c2Y 0) from by decide)]
  have hW1 : c2W1 1 k = 0 := by simp [c2W1]
  rw [hW1]
  by_cases hk : k.val = 52
  · have hW0 : c2W1 0 k = 1352 := by simp [c2W1, hk]
    rw [hW0, if_pos hk]
    norm_num
  · have hW0 : c2W1 0 k = 0 := by simp [c2W1, hk]
    rw [hW0, if_neg hk]
    norm_num

/-- The stored pooling mask marks position (4, 4) (the duplicated copy of
convolution cell (2, 2) inside the window at (2, 2)) as a maximum. -/
lemma c2_mask44 :
    (conv_forward c2X (c2ConvParams 0)).2.masks ⟨4, by omega⟩ ⟨4, by omega⟩
      (0 : Fin 5) 0 = 1 := by
  have h4 : conv_mask_single (fun u v => c2X u v 0) (c2Filter 0) 0
      ⟨4, by omega⟩ ⟨4, by omega⟩ =
      if window_entry (fun u v => c2X u v 0) (c2Filter 0) 0
          ⟨2, by omega⟩ ⟨2, by omega⟩ 0 0 =
        spec_window_max (fun u v => c2X u v 0) (c2Filter 0) 0
          ⟨2, by omega⟩ ⟨2, by omega⟩ then 1 else 0 :=
    conv_mask_single_eq (fun u v => c2X u v 0) (c2Filter 0) 0
      ⟨2, by omega⟩ ⟨2, by omega⟩ 0 0
  show conv_mask_single (fun u v => c2X u v 0) (c2Filter 0) 0
    ⟨4, by omega⟩ ⟨4, by omega⟩ = 1
  rw [h4, if_pos]
  rw [c2_entry_22 (fun u v => c2X u v 0) (c2Filter 0) 0
      (fun u v => rfl) (fun a b => rfl),
    c2_spec_max_22 (fun u v => c2X u v 0) (c2Filter 0) 0
      (fun u v => rfl) (fun a b => rfl)]

/-- The pooling-reversal value at filter 1, convolution cell (2, 2): the
dense gradient -676 at pooled cell (2, 2) is routed there through the
mask. -/
lemma c2_pool_backward_54 (dA : Matrix (Fin 3125) (Fin 1) ℝ)
    (hdA : ∀ k, dA k 0 = if k.val = 52 then -676 else 0) :
    pool_backward dA (conv_forward c2X (c2ConvParams 0)).2
      ⟨54, by omega⟩ 0 = -676 := by
  simp only [pool_backward, Fin.sum_univ_two, Fin.val_mk, Fin.val_zero,
    Fin.val_one]
  norm_num
  simp only [hdA, Fin.val_mk]
  norm_num [c2_mask44]

/-- The filter-1 gradient entry (0, 0) computed by `conv_backward` at the
evaluation point is -1. -/
lemma c2_dconvW_00 : c2Gradients.dconvW 0 0 0 = -1 := by
  have hca : (conv_forward c2X (c2ConvParams 0)).2.A = c2X := rfl
  show (∑ pos : Fin 676, ∑ s : Fin 1,
      (conv_forward c2X (c2ConvParams 0)).2.A
          ⟨pos.val / 26 + (0 : Fin 3).val, by omega⟩
          ⟨pos.val % 26 + (0 : Fin 3).val, by omega⟩ s *
        pool_backward
          (multi_layer_backward
            (softmax_cross_entropy_loss_der c2Y
              (softmax_cross_entropy_loss
                (multi_layer_forward c2Dense
                  (conv_forward c2X (c2ConvParams 0)).1).1 c2Y).2.1)
            (multi_layer_forward c2Dense
              (conv_forward c2X (c2ConvParams 0)).1).2
            c2Dense).2
          (conv_forward c2X (c2ConvParams 0)).2
          ⟨676 * (0 : Fin 5).val + pos.val, by omega⟩ s) /
      (((1 : ℕ) : ℝ) * 676) = -1
  rw [hca]
  rw [Finset.sum_eq_single (⟨54, by omega⟩ : Fin 676)]
  · rw [Fin.sum_univ_one]
    have hX54 : c2X ⟨(⟨54, by omega⟩ : Fin 676).val / 26 + (0 : Fin 3).val,
        by omega⟩ ⟨(⟨54, by omega⟩ : Fin 676).val % 26 + (0 : Fin 3).val,
        by omega⟩ 0 = 1 := by
      show (if (54 / 26 + 0 = 2 ∧ 54 % 26 + 0 = 2) then (1 : ℝ) else 0) = 1
      norm_num
    rw [hX54, one_mul]
    have hpb := c2_pool_backward_54 _ c2_dA
    have hpb2 : pool_backward
        (multi_layer_backward
          (softmax_cross_entropy_loss_der c2Y
            (softmax_cross_entropy_loss
              (multi_layer_forward c2Dense
                (conv_forward c2X (c2ConvParams 0)).1).1 c2Y).2.1)
          (multi_layer_forward c2Dense
            (conv_forward c2X (c2ConvParams 0)).1).2
          c2Dense).2
        (conv_forward c2X (c2ConvParams 0)).2
        ⟨676 * (0 : Fin 5).val + (⟨54, by omega⟩ : Fin 676).val, by omega⟩
        0 = -676 := hpb
    rw [hpb2]
    norm_num
  · intro pos _ hpos
    rw [Fin.sum_univ_one]
    have hx0 : c2X ⟨pos.val / 26 + (0 : Fin 3).val, by omega⟩
        ⟨pos.val % 26 + (0 : Fin 3).val, by omega⟩ 0 = 0 := by
      show (if (pos.val / 26 + (0 : Fin 3).val = 2 ∧
          pos.val % 26 + (0 : Fin 3).val = 2) then (1 : ℝ) else 0) = 0
      rw [if_neg]
      intro hc
      apply hpos
      apply Fin.ext
      simp only [Fin.val_mk, Fin.val_zero] at hc ⊢
      omega
    rw [hx0, zero_mul]
  · intro hmem
    exact absurd (Finset.mem_univ _) hmem

/-- The loss is a constant function of filter 1's entry (0, 0): the dense
layer reads only pooled position (2, 2), whose value max(1, 0, 0, 0) = 1
does not depend on that entry. -/
lemma c2Loss_const (s : ℝ) : c2Loss s = c2Loss 0 := by
  unfold c2Loss
  have h : ∀ t : ℝ,
      (multi_layer_forward c2Dense (conv_forward c2X (c2ConvParams t)).1).1 =
        fun _ _ => 1352 := by
    intro t
    funext r j
    have hj : j = 0 := Subsingleton.elim j 0
    subst hj
    exact c2_AL t r
  rw [h s, h 0]

/-- The true derivative of the loss with respect to filter 1's entry
(0, 0) at the evaluation point is 0. -/
lemma c2Loss_hasDerivAt : HasDerivAt c2Loss 0 0 := by
  have h : c2Loss = fun _ => c2Loss 0 := funext c2Loss_const
  rw [h]
  exact hasDerivAt_const 0 _

/-- C2 (the code violates the claim): at a concrete one-sample
configuration the batch-mean loss computed through conv_forward's valid
convolution, pooling, the dense stack and the softmax-cross-entropy head
is a constant function of filter 1's entry (0, 0) — its true derivative
there is 0 — yet `conv_backward` returns dconvW1[0][0] = -1, a
discrepancy far beyond any finite-difference tolerance.  (The backward
pass accumulates patches without the kernel flip that
`scipy.signal.convolve2d` applies in the forward pass, and divides by an
extra factor 676.) -/
theorem C2_conv_backward_gradient_check_fails :
    HasDerivAt c2Loss 0 0 ∧
    c2Gradients.dconvW 0 0 0 = -1 ∧
    |c2Gradients.dconvW 0 0 0 - 0| > (1 : ℝ) / 2 := by
  refine ⟨c2Loss_hasDerivAt, c2_dconvW_00, ?_⟩
  rw [c2_dconvW_00]
  norm_num

/-- C4: applying `relu_der` to any dA with the cache produced by
`relu(Z)` yields a matrix that is 0 exactly at the positions where
Z < 0 and equal to dA everywhere else; in particular positions with
Z = 0 pass through unchanged (the `Z < 0` test is strict). -/
theorem C4_relu_backward_zeroes_negatives {n m : ℕ}
    (Z dA : Matrix (Fin n) (Fin m) α) (i : Fin n) (j : Fin m) :
    relu_der dA (relu Z).2 i j = if Z i j < 0 then 0 else dA i j := by
  rfl

end ConvPoolNN
